import Mathlib

/-!
Verification development for verify-redact-cli.

This file gives a shallow embedding of the verification core of the
repository (src/extractors.py, src/denylist.py, src/core.py) and proves
properties of it.  Python strings are modelled as Lean `String`s (lists of
characters); Python's `re` whitespace class `\s` and `str.strip` are
modelled on the ASCII whitespace characters, and case folding on ASCII
letters, which covers all inputs appearing in the repository and its
tests.  Fallible code is modelled with `Option`/`Except`.
-/

namespace RedactVerify

/-- ASCII whitespace, the characters matched by Python's regex class `\s`
on ASCII text (space, tab, newline, carriage return, vertical tab, form feed). -/
def isWS (c : Char) : Bool :=
  c = ' ' || c = '\t' || c = '\n' || c = '\r' || c = '\x0b' || c = '\x0c'

/-- Lower-case a character list (models Python `str.lower()` on ASCII text). -/
def lowerL (cs : List Char) : List Char := cs.map Char.toLower

/-- Strip ASCII whitespace from both ends (models Python `str.strip()`). -/
def stripChars (cs : List Char) : List Char :=
  ((cs.dropWhile isWS).reverse.dropWhile isWS).reverse

/-- `str.strip()` on `String`. -/
def stripS (s : String) : String := ⟨stripChars s.data⟩

/-- Python's `in` on strings: `needle` occurs as a contiguous substring of `hay`. -/
def containsSub (needle hay : List Char) : Bool :=
  hay.tails.any (fun t => needle.isPrefixOf t)

/-- Lexicographic comparison of character lists by code point, as Python
compares strings. -/
def lexLeB : List Char → List Char → Bool
  | [], _ => true
  | _ :: _, [] => false
  | a :: as, b :: bs =>
    if a.toNat < b.toNat then true
    else if a.toNat = b.toNat then lexLeB as bs
    else false

/-- Insert a string into a lexicographically sorted list. -/
def insertSorted (x : String) : List String → List String
  | [] => [x]
  | y :: ys => if lexLeB x.data y.data then x :: y :: ys else y :: insertSorted x ys

/-- Sort strings ascending by code point (models Python `sorted`). -/
def sortStrings : List String → List String
  | [] => []
  | x :: xs => insertSorted x (sortStrings xs)

/-! ## The literal-pattern matcher (denylist.py, `DenylistPattern.from_string`)

A literal denylist string `s` is compiled by `re.escape(s)` followed by
`escaped.replace(r'\ ', r'\s+')` and `re.IGNORECASE`.  `re.escape` makes
every character of `s` match itself literally (escaping the metacharacters,
including the space, which becomes `\ `); the replace then turns each
escaped space character — and only the space, not tabs or newlines — into
the one-or-more-whitespace pattern `\s+`.  The compiled pattern is hence a
sequence of tokens: a literal (case-insensitive) character, or `\s+`. -/

inductive LitTok where
  | ch (c : Char)
  | wsPlus
deriving DecidableEq

/-- Compile a literal denylist string to its token list: each space becomes
`\s+`, every other character matches itself (case-insensitively). -/
def compileLit (cs : List Char) : List LitTok :=
  cs.map (fun c => if c = ' ' then LitTok.wsPlus else LitTok.ch c)

/-- Length of the (leftmost-preferred, greedy) match of the token list at
the start of `cs`, or `none` — Python's backtracking semantics for a
pattern made of literal characters and greedy `\s+`. -/
def matchLen : List LitTok → List Char → Option Nat
  | [], _ => some 0
  | LitTok.ch c :: ts, d :: ds =>
    if c.toLower = d.toLower then (matchLen ts ds).map (· + 1) else none
  | LitTok.ch _ :: _, [] => none
  | LitTok.wsPlus :: ts, d :: ds =>
    if isWS d then
      match matchLen (LitTok.wsPlus :: ts) ds with
      | some n => some (n + 1)
      | none => (matchLen ts ds).map (· + 1)
    else none
  | LitTok.wsPlus :: _, [] => none

/-- Leftmost match: try each start position left to right and return the
matched characters (`re.search` followed by `.group(0)`). -/
def litSearchFrom (ts : List LitTok) : List Char → Option (List Char)
  | [] => (matchLen ts []).map (fun _ => ([] : List Char))
  | d :: ds =>
    match matchLen ts (d :: ds) with
    | some n => some ((d :: ds).take n)
    | none => litSearchFrom ts ds

/-- `pattern.search(s)` for a compiled literal pattern: the first match's
text, or `none`. -/
def litSearch (ts : List LitTok) (s : String) : Option String :=
  (litSearchFrom ts s.data).map (fun cs => (⟨cs⟩ : String))

/-! ## Data model (extractors.py, denylist.py, core.py) -/

/-- A fragment of extracted text with source metadata (extractors.py,
`TextFragment`). -/
structure TextFragment where
  text : String
  source : String
  page : Option Nat := none
  location : Option String := none
deriving DecidableEq

/-- Collection of all extracted text from a PDF (extractors.py, `Corpus`). -/
structure Corpus where
  fragments : List TextFragment := []
  surfaces_extracted : List String := []
  ocr_performed : Bool := false

/-- Python `" ".join(xs)` on the character level. -/
def joinSpChars : List String → List Char
  | [] => []
  | [x] => x.data
  | x :: y :: t => x.data ++ ' ' :: joinSpChars (y :: t)

/-- `Corpus.full_text`: the texts of the fragments with non-empty text
(`if f.text` in the generator), in order, joined by a single space. -/
def Corpus.full_text (c : Corpus) : String :=
  ⟨joinSpChars ((c.fragments.filter (fun f => f.text != "")).map (·.text))⟩

/-- A pattern to match against extracted text (denylist.py,
`DenylistPattern`).  The compiled regex is represented by its `search`
function: the first match's text for a given input, if any. -/
structure DenylistPattern where
  search : String → Option String
  original : String
  is_regex : Bool

/-- `DenylistPattern.from_string(s)` with `as_regex=False`: escape the
metacharacters, rewrite each escaped space to `\s+`, compile with
`re.IGNORECASE`. -/
def DenylistPattern.from_string (s : String) : DenylistPattern :=
  { search := fun t => litSearch (compileLit s.data) t
    original := s
    is_regex := false }

/-- Leftmost case-insensitive occurrence of `pl` (already lower-cased) in a
text, returning the matching slice.  This is `re.search` for a regex that
contains no metacharacters, compiled with `re.IGNORECASE` (and
`re.MULTILINE`, which is irrelevant without anchors): such a pattern
matches exactly the case variants of its own text. -/
def ciSearchFrom (pl : List Char) : List Char → Option (List Char)
  | [] => if pl.isEmpty then some [] else none
  | d :: ds =>
    if pl.isPrefixOf (lowerL (d :: ds)) then some ((d :: ds).take pl.length)
    else ciSearchFrom pl ds

/-- `DenylistPattern.from_string(s, as_regex=True)` for a regex `s` without
metacharacters: `re.compile(s, re.IGNORECASE | re.MULTILINE)`. -/
def DenylistPattern.fromPlainRegex (s : String) : DenylistPattern :=
  { search := fun t => (ciSearchFrom (lowerL s.data) t.data).map (fun cs => (⟨cs⟩ : String))
    original := s
    is_regex := true }

/-- A match found in the corpus (denylist.py, `Match`). -/
structure Match where
  pattern : String
  text : String
  source : String
  page : Option Nat := none
  location : Option String := none
deriving DecidableEq

/-- The de-duplication key used by `check_corpus`:
`(pattern, source, page, matched_text)`. -/
abbrev MatchKey := String × String × Option Nat × String

/-! ## The match engine (denylist.py, `check_corpus`) -/

/-- Inner step of the fragment pass: one pattern checked against one
fragment; append a `Match` unless its key was already seen. -/
def fragmentStep (f : TextFragment) (acc : List Match × List MatchKey)
    (dp : DenylistPattern) : List Match × List MatchKey :=
  match dp.search f.text with
  | none => acc
  | some t =>
    let key : MatchKey := (dp.original, f.source, f.page, t)
    if key ∈ acc.2 then acc
    else (acc.1 ++ [{ pattern := dp.original, text := t, source := f.source,
                      page := f.page, location := f.location }], key :: acc.2)

/-- The fragment pass of `check_corpus`: every fragment with non-empty text
is checked against every pattern. -/
def fragmentPass (c : Corpus) (ps : List DenylistPattern) :
    List Match × List MatchKey :=
  c.fragments.foldl
    (fun acc f => if f.text = "" then acc else ps.foldl (fragmentStep f) acc)
    ([], [])

/-- Whether some 3-character substring of `ml` occurs in `fl`
(the `for i in range(len(matched_lower) - 2)` loop of `check_corpus`). -/
def overlap3 (ml fl : List Char) : Bool :=
  (List.range (ml.length - 2)).any (fun i => containsSub ((ml.drop i).take 3) fl)

/-- Source attribution for a full-text (spanning) match: starts at
`"multiple_sources"`; every fragment with non-empty text whose lower-cased
text contains a 3-character substring of the lower-cased matched text —
only checked when the matched text is longer than 3 characters —
contributes its source; if more than one distinct source contributed, a
composite label of the sorted sources is used, else the last contributing
source.  The Python `set` of contributing sources is modelled as a
duplicate-free list in first-contribution order. -/
def insertNew (xs : List String) (s : String) : List String :=
  if s ∈ xs then xs else xs ++ [s]

/-- One fragment's contribution to the attribution state
`(source, contributing_sources)`. -/
def attrStep (ml : List Char) (acc : String × List String) (f : TextFragment) :
    String × List String :=
  if f.text = "" then acc
  else if 3 < ml.length && overlap3 ml (lowerL f.text.data) then
    (f.source, insertNew acc.2 f.source)
  else acc

def attributeSource (frags : List TextFragment) (matched : String) : String :=
  let ml := lowerL matched.data
  let res := frags.foldl (attrStep ml) ("multiple_sources", [])
  if 1 < res.2.length then
    "multiple_sources(" ++ String.intercalate "," (sortStrings res.2) ++ ")"
  else res.1

/-- One pattern checked against the concatenated full text: append a
spanning `Match` unless the key `(pattern, "full_text", None, text)` was
already seen. -/
def fullTextStep (c : Corpus) (acc : List Match × List MatchKey)
    (dp : DenylistPattern) : List Match × List MatchKey :=
  match dp.search c.full_text with
  | none => acc
  | some t =>
    let key : MatchKey := (dp.original, "full_text", none, t)
    if key ∈ acc.2 then acc
    else (acc.1 ++ [{ pattern := dp.original, text := t,
                      source := attributeSource c.fragments t, page := none,
                      location := some "spanning_multiple_fragments" }],
          key :: acc.2)

/-- The full-text pass of `check_corpus`, continuing the fragment pass's
match list and seen-key set. -/
def fullTextPass (c : Corpus) (ps : List DenylistPattern)
    (acc : List Match × List MatchKey) : List Match × List MatchKey :=
  ps.foldl (fullTextStep c) acc

/-- `check_corpus(corpus, patterns)`: the fragment pass, then — when the
full text is non-empty — the full-text pass over the same accumulator. -/
def check_corpus (c : Corpus) (ps : List DenylistPattern) : List Match :=
  let acc := fragmentPass c ps
  if c.full_text = "" then acc.1 else (fullTextPass c ps acc).1

/-! ## The verify orchestrator (core.py) -/

/-- Exit codes for verification results (core.py, `ExitCode`). -/
inductive ExitCode where
  | PASS
  | FAIL
  | ERROR
deriving DecidableEq

/-- The numeric value of each exit code (`IntEnum`). -/
def ExitCode.toNat : ExitCode → Nat
  | .PASS => 0
  | .FAIL => 1
  | .ERROR => 2

/-- Result of a verification operation (core.py, `VerifyResult`). -/
structure VerifyResult where
  exit_code : ExitCode
  matchList : List Match := []
  error : Option String := none
  surfaces_checked : List String := []
  ocr_performed : Bool := false
deriving DecidableEq

/-- An exception escaping the extraction phase, as `verify` distinguishes
them: the `ExtractionError` that `extract_all` raises when `fitz.open`
fails, or any other exception.  The latter is reachable with a
successfully opened document: `extract_all` wraps the extractor calls
only in `try/finally`, and several of them run unguarded adapter
operations (`page.get_text` at extractors.py:123 and :249, the
annotation, form-field and metadata enumerations at extractors.py:166,
202 and 220, the OCR page loop at :1190), whose exceptions propagate. -/
inductive ExtractError where
  | extractionError (msg : String)
  | unexpectedError (msg : String)

/-- Outcome of the extraction phase inside `extract_all`: the document
opened and every extractor call returned (each surface's own faults
suppressed by its internal `try/except`, contributing less text); or
`fitz.open` raised, with the underlying message; or an unguarded
extractor operation raised after a successful open. -/
inductive ExtractionOutcome where
  | opened (c : Corpus)
  | openFailed (e : String)
  | extractorRaised (e : String)

/-- `extract_all`: an open failure raises
`ExtractionError("Failed to open PDF: ...")`; an exception escaping the
`try/finally` around the extractors propagates unwrapped; otherwise the
extracted corpus is returned. -/
def extract_all : ExtractionOutcome → Except ExtractError Corpus
  | .openFailed e => .error (.extractionError ("Failed to open PDF: " ++ e))
  | .extractorRaised e => .error (.unexpectedError e)
  | .opened c => .ok c

/-- Whether the extraction phase failed (either way). -/
def ExtractionOutcome.failed : ExtractionOutcome → Bool
  | .opened _ => false
  | _ => true

/-- Whether `fitz.open` succeeded on this outcome. -/
def ExtractionOutcome.openSucceeded : ExtractionOutcome → Bool
  | .openFailed _ => false
  | _ => true

/-- `verify(pdf_path, denylist_patterns, ...)` (core.py): an
`ExtractionError` gives ERROR with its message, any other exception gives
ERROR with the `Unexpected error reading PDF: ...` message; an empty
pattern list gives PASS; otherwise `check_corpus` decides FAIL (with the
match list) or PASS. -/
def verify (openRes : ExtractionOutcome) (ps : List DenylistPattern) : VerifyResult :=
  match extract_all openRes with
  | .error (.extractionError m) => { exit_code := .ERROR, error := some m }
  | .error (.unexpectedError m) =>
    { exit_code := .ERROR, error := some ("Unexpected error reading PDF: " ++ m) }
  | .ok c =>
    if ps.isEmpty then
      { exit_code := .PASS, surfaces_checked := c.surfaces_extracted,
        ocr_performed := c.ocr_performed }
    else
      let ms := check_corpus c ps
      if ms.isEmpty then
        { exit_code := .PASS, surfaces_checked := c.surfaces_extracted,
          ocr_performed := c.ocr_performed }
      else
        { exit_code := .FAIL, matchList := ms,
          surfaces_checked := c.surfaces_extracted,
          ocr_performed := c.ocr_performed }

/-! ## Denylist loading (denylist.py, `load_denylist`)

The Python regex compiler `re.compile(s, re.IGNORECASE | re.MULTILINE)` is
modelled by an oracle: it either yields the compiled pattern's `search`
function or the error message of the raised `re.error`. -/

/-- The outcome of `re.compile` on a candidate regex string. -/
abbrev RegexCompiler := String → Except String (String → Option String)

/-- `s.startswith(p)`. -/
def startsWithB (s p : String) : Bool := p.data.isPrefixOf s.data

/-- `s[n:]`. -/
def dropChars (s : String) (n : Nat) : String := ⟨s.data.drop n⟩

/-- `DenylistPattern.from_string(s, as_regex=True)`: compile as a
case-insensitive multiline regex; on `re.error` raise
`ValueError("Invalid regex pattern '<s>': <e>")`. -/
def from_string_regex (compileRe : RegexCompiler) (s : String) :
    Except String DenylistPattern :=
  match compileRe s with
  | .error e => .error ("Invalid regex pattern \x27" ++ s ++ "\x27: " ++ e)
  | .ok m => .ok { search := m, original := s, is_regex := true }

/-- The per-line loop of `load_denylist` over the file's lines, carrying the
accumulated pattern list and the 1-based line number. -/
def loadLines (compileRe : RegexCompiler) :
    List DenylistPattern → Nat → List String → Except String (List DenylistPattern)
  | acc, _, [] => .ok acc
  | acc, n, l :: ls =>
    let line := stripS l
    if line = "" || startsWithB line "#" then loadLines compileRe acc (n + 1) ls
    else if startsWithB line "regex:" then
      let regexStr := stripS (dropChars line 6)
      if regexStr = "" then loadLines compileRe acc (n + 1) ls
      else
        match from_string_regex compileRe regexStr with
        | .error e => .error ("Invalid regex on line " ++ toString n ++ ": " ++ e)
        | .ok p => loadLines compileRe (acc ++ [p]) (n + 1) ls
    else loadLines compileRe (acc ++ [DenylistPattern.from_string line]) (n + 1) ls

/-- `load_denylist(strings, file_path)`: inline strings become literal
patterns (skipping falsy/blank ones); the file's lines, when a file is
given, are processed one per line. -/
def load_denylist (compileRe : RegexCompiler) (strings : List String)
    (fileLines : Option (List String)) : Except String (List DenylistPattern) :=
  let inline := strings.foldl
    (fun acc s => if s != "" && stripS s != "" then
        acc ++ [DenylistPattern.from_string (stripS s)]
      else acc)
    []
  match fileLines with
  | none => .ok inline
  | some ls => loadLines compileRe inline 1 ls

/-! Specification-side view of the loader, following the spec's wording
(one pattern per line; blank lines and `#` lines ignored; `regex:` lines
compile the trimmed remainder when it is non-empty; other non-empty lines
are literal patterns; the first invalid regex aborts the load citing its
1-based line number). -/

/-- What a denylist-file line stands for. -/
inductive LineKind where
  | skip
  | regexLine (r : String)
  | literalLine (s : String)

/-- Classify one line of the denylist file. -/
def classifyLine (l : String) : LineKind :=
  let t := stripS l
  if t = "" then .skip
  else if startsWithB t "#" then .skip
  else if startsWithB t "regex:" then
    let r := stripS (dropChars t 6)
    if r = "" then .skip else .regexLine r
  else .literalLine t

/-- The first (1-based) line whose regex remainder fails to compile, with
the remainder and the compile error. -/
def firstBadRegexFrom (compileRe : RegexCompiler) :
    Nat → List String → Option (Nat × String × String)
  | _, [] => none
  | n, l :: ls =>
    match classifyLine l with
    | .regexLine r =>
      match compileRe r with
      | .error e => some (n, r, e)
      | .ok _ => firstBadRegexFrom compileRe (n + 1) ls
    | _ => firstBadRegexFrom compileRe (n + 1) ls

/-- The pattern a single line contributes when every regex compiles. -/
def lineToPat (compileRe : RegexCompiler) (l : String) : Option DenylistPattern :=
  match classifyLine l with
  | .skip => none
  | .regexLine r =>
    match compileRe r with
    | .ok m => some { search := m, original := r, is_regex := true }
    | .error _ => none
  | .literalLine s => some (DenylistPattern.from_string s)

/-- Declarative loader: fail on the first bad regex line, citing its
1-based number, else return every line's pattern in order. -/
def loadDenylistSpec (compileRe : RegexCompiler) (lines : List String) :
    Except String (List DenylistPattern) :=
  match firstBadRegexFrom compileRe 1 lines with
  | some (n, r, e) =>
    .error ("Invalid regex on line " ++ toString n ++ ": " ++
      ("Invalid regex pattern \x27" ++ r ++ "\x27: " ++ e))
  | none => .ok (lines.filterMap (lineToPat compileRe))

/-! ## The content-stream tokenizer (extractors.py,
`_extract_text_from_content_stream` and `_unescape_pdf_string`)

Each of the function's four regex passes uses `finditer` with a pattern
whose repeated character class excludes its closing delimiter, so the
backtracking search is deterministic: a maximal run followed by the
required delimiter.  `finditer` scans start positions left to right and
resumes after each match's end; every successful match consumes at least
its opening delimiter, so fuel equal to the input length suffices. -/

/-- One `str.replace(old, new)`: leftmost, non-overlapping, left to right
(`old` non-empty). -/
def replaceAllAux (pat rep : List Char) : Nat → List Char → List Char
  | 0, cs => cs
  | _ + 1, [] => []
  | fuel + 1, c :: cs =>
    if pat.isPrefixOf (c :: cs) then
      rep ++ replaceAllAux pat rep fuel ((c :: cs).drop pat.length)
    else c :: replaceAllAux pat rep fuel cs

/-- `str.replace` with fuel instantiated. -/
def replaceAllL (pat rep cs : List Char) : List Char :=
  replaceAllAux pat rep cs.length cs

/-- `_unescape_pdf_string`: the six replacements, applied sequentially in
the source's order. -/
def unescapePdfString (cs : List Char) : List Char :=
  let r1 := replaceAllL ['\\', 'n'] ['\n'] cs
  let r2 := replaceAllL ['\\', 'r'] ['\r'] r1
  let r3 := replaceAllL ['\\', 't'] ['\t'] r2
  let r4 := replaceAllL ['\\', '('] ['('] r3
  let r5 := replaceAllL ['\\', ')'] [')'] r4
  replaceAllL ['\\', '\\'] ['\\'] r5

/-- Hex digit value. -/
def hexVal (c : Char) : Option Nat :=
  if '0'.toNat ≤ c.toNat && c.toNat ≤ '9'.toNat then some (c.toNat - '0'.toNat)
  else if 'a'.toNat ≤ c.toNat && c.toNat ≤ 'f'.toNat then some (c.toNat - 'a'.toNat + 10)
  else if 'A'.toNat ≤ c.toNat && c.toNat ≤ 'F'.toNat then some (c.toNat - 'A'.toNat + 10)
  else none

/-- Whether `c` is a hexadecimal digit. -/
def isHexDigit (c : Char) : Bool := (hexVal c).isSome

/-- `bytes.fromhex`: ASCII whitespace is skipped between byte pairs; each
byte needs two immediately adjacent hex digits; anything else raises
(`none`). -/
def fromHexBytes : List Char → Option (List Nat)
  | [] => some []
  | c :: cs =>
    if isWS c then fromHexBytes cs
    else
      match hexVal c, cs with
      | some hi, d :: cs2 =>
        match hexVal d with
        | some lo => (fromHexBytes cs2).map (fun bs => (hi * 16 + lo) :: bs)
        | none => none
      | _, _ => none

/-- Whether the second byte of a 3-byte UTF-8 sequence is in range for the
given leading byte (excluding overlong forms and surrogates). -/
def utf8Cont3Ok (b1 b2 : Nat) : Bool :=
  if b1 = 0xE0 then 0xA0 ≤ b2 && b2 ≤ 0xBF
  else if b1 = 0xED then 0x80 ≤ b2 && b2 ≤ 0x9F
  else 0x80 ≤ b2 && b2 ≤ 0xBF

/-- Whether the second byte of a 4-byte UTF-8 sequence is in range for the
given leading byte. -/
def utf8Cont4Ok (b1 b2 : Nat) : Bool :=
  if b1 = 0xF0 then 0x90 ≤ b2 && b2 ≤ 0xBF
  else if b1 = 0xF4 then 0x80 ≤ b2 && b2 ≤ 0x8F
  else 0x80 ≤ b2 && b2 ≤ 0xBF

/-- A UTF-8 continuation byte. -/
def utf8Cont (b : Nat) : Bool := 0x80 ≤ b && b ≤ 0xBF

/-- `bytes.decode("utf-8", errors="ignore")`: well-formed sequences decode
to their scalar value; on an ill-formed sequence the offending leading
byte is skipped and decoding continues (the error-recovery granularity of
CPython is modelled as skipping one byte at a time; successful decodes are
exact). -/
def utf8DecodeIgnore : List Nat → List Char
  | [] => []
  | b1 :: bs =>
    if b1 < 0x80 then Char.ofNat b1 :: utf8DecodeIgnore bs
    else if 0xC2 ≤ b1 && b1 ≤ 0xDF then
      match bs with
      | b2 :: bs2 =>
        if utf8Cont b2 then
          Char.ofNat ((b1 - 0xC0) * 64 + (b2 - 0x80)) :: utf8DecodeIgnore bs2
        else utf8DecodeIgnore (b2 :: bs2)
      | [] => []
    else if 0xE0 ≤ b1 && b1 ≤ 0xEF then
      match bs with
      | b2 :: b3 :: bs3 =>
        if utf8Cont3Ok b1 b2 && utf8Cont b3 then
          Char.ofNat ((b1 - 0xE0) * 4096 + (b2 - 0x80) * 64 + (b3 - 0x80)) ::
            utf8DecodeIgnore bs3
        else utf8DecodeIgnore (b2 :: b3 :: bs3)
      | b2 :: bs2 => utf8DecodeIgnore (b2 :: bs2)
      | [] => []
    else if 0xF0 ≤ b1 && b1 ≤ 0xF4 then
      match bs with
      | b2 :: b3 :: b4 :: bs4 =>
        if utf8Cont4Ok b1 b2 && utf8Cont b3 && utf8Cont b4 then
          Char.ofNat ((b1 - 0xF0) * 262144 + (b2 - 0x80) * 4096 +
            (b3 - 0x80) * 64 + (b4 - 0x80)) :: utf8DecodeIgnore bs4
        else utf8DecodeIgnore (b2 :: b3 :: b4 :: bs4)
      | b2 :: bs2 => utf8DecodeIgnore (b2 :: bs2)
      | [] => []
    else utf8DecodeIgnore bs

/-- Generic `finditer` loop: try a match at each position, resume after a
match, advance one character otherwise. -/
def scanWith (tryAt : List Char → Option (List Char × List Char)) :
    Nat → List Char → List (List Char)
  | 0, _ => []
  | _ + 1, [] => []
  | fuel + 1, c :: cs =>
    match tryAt (c :: cs) with
    | some (g, rest) => g :: scanWith tryAt fuel rest
    | none => scanWith tryAt fuel cs

/-- A match of `\(([^)]*)\)\s*Tj` starting here: returns the group and the
text after the match. -/
def tryTjAt : List Char → Option (List Char × List Char)
  | '(' :: rest =>
    let content := rest.takeWhile (fun c => c != ')')
    match rest.dropWhile (fun c => c != ')') with
    | ')' :: rest2 =>
      match rest2.dropWhile isWS with
      | 'T' :: 'j' :: rest3 => some (content, rest3)
      | _ => none
    | _ => none
  | _ => none

/-- A match of `\[((?:[^]]+))\]\s*TJ` starting here. -/
def tryTJArrAt : List Char → Option (List Char × List Char)
  | '[' :: rest =>
    let content := rest.takeWhile (fun c => c != ']')
    if content.isEmpty then none
    else
      match rest.dropWhile (fun c => c != ']') with
      | ']' :: rest2 =>
        match rest2.dropWhile isWS with
        | 'T' :: 'J' :: rest3 => some (content, rest3)
        | _ => none
      | _ => none
  | _ => none

/-- A match of `\(([^)]*)\)` starting here. -/
def tryParenAt : List Char → Option (List Char × List Char)
  | '(' :: rest =>
    let content := rest.takeWhile (fun c => c != ')')
    match rest.dropWhile (fun c => c != ')') with
    | ')' :: rest2 => some (content, rest2)
    | _ => none
  | _ => none

/-- A match of `<([0-9A-Fa-f\s]+)>\s*T[^a-zA-Z]` starting here.  Note the
trailing `[^a-zA-Z]`: the character after `T` must not be an ASCII
letter. -/
def tryHexAt : List Char → Option (List Char × List Char)
  | '<' :: rest =>
    let hexRun := rest.takeWhile (fun c => isHexDigit c || isWS c)
    if hexRun.isEmpty then none
    else
      match rest.dropWhile (fun c => isHexDigit c || isWS c) with
      | '>' :: rest2 =>
        match rest2.dropWhile isWS with
        | 'T' :: d :: rest3 => if d.isAlpha then none else some (hexRun, rest3)
        | _ => none
      | _ => none
  | _ => none

/-- A match of `\(([^)]{3,})\)` starting here. -/
def tryBigParenAt : List Char → Option (List Char × List Char)
  | '(' :: rest =>
    let content := rest.takeWhile (fun c => c != ')')
    if content.length < 3 then none
    else
      match rest.dropWhile (fun c => c != ')') with
      | ')' :: rest2 => some (content, rest2)
      | _ => none
  | _ => none

/-- Strip, keep if non-empty (the `if text.strip(): texts.append(text.strip())`
idiom). -/
def keepStripped (cs : List Char) : Option (List Char) :=
  let u := stripChars cs
  if u.isEmpty then none else some u

/-- `_extract_text_from_content_stream(stream)`: the four passes — literal
strings before `Tj`; literal entries of `[...] TJ` arrays; hex strings
before `T` followed by a non-letter; any parenthesized run of length ≥ 3
containing a letter (Python's `str.isalpha` is modelled on ASCII) — joined
by single spaces. -/
def extractTextFromContentStream (stream : String) : String :=
  let cs := stream.data
  let t1 := (scanWith tryTjAt cs.length cs).filterMap
    (fun g => keepStripped (unescapePdfString g))
  let t2 := ((scanWith tryTJArrAt cs.length cs).map
    (fun a => (scanWith tryParenAt a.length a).filterMap
      (fun g => keepStripped (unescapePdfString g)))).flatten
  let t3 := (scanWith tryHexAt cs.length cs).filterMap
    (fun g =>
      let h := g.filter (fun c => c != ' ' && c != '\n' && c != '\r')
      match fromHexBytes h with
      | none => none
      | some bs => keepStripped (utf8DecodeIgnore bs))
  let t4 := (scanWith tryBigParenAt cs.length cs).filterMap
    (fun g =>
      if g.any Char.isAlpha then
        match keepStripped (unescapePdfString g) with
        | some u => if u.length < 3 then none else some u
        | none => none
      else none)
  ⟨joinSpChars ((t1 ++ t2 ++ t3 ++ t4).map (fun l => (⟨l⟩ : String)))⟩

/-! ## Specification-side definitions used to state the claims -/

/-- `t` is obtained from `s` by changing letter case and replacing each
space character with a non-empty run of whitespace characters (the texts a
compiled literal pattern is meant to match). -/
inductive SpaceExpand : List Char → List Char → Prop
  | nil : SpaceExpand [] []
  | char {c d : Char} {s t : List Char} (hc : c ≠ ' ')
      (hcd : c.toLower = d.toLower) (h : SpaceExpand s t) :
      SpaceExpand (c :: s) (d :: t)
  | space {s t : List Char} (ws : List Char) (hne : ws ≠ [])
      (hws : ∀ c ∈ ws, isWS c) (h : SpaceExpand s t) :
      SpaceExpand (' ' :: s) (ws ++ t)

/-- Whether a fragment contributes to the attribution of a spanning match
with (lower-cased) matched text `ml`: non-empty text, matched text longer
than 3 characters, and a shared 3-character substring. -/
def qualB (ml : List Char) (f : TextFragment) : Bool :=
  f.text != "" && (3 < ml.length && overlap3 ml (lowerL f.text.data))

/-- The sources of the contributing fragments, in order, with repetitions. -/
def qualSourcesList (frags : List TextFragment) (matched : String) : List String :=
  (frags.filter (qualB (lowerL matched.data))).map (·.source)

/-- Distinct elements in first-occurrence order (the contributing-source
set of the attribution loop). -/
def dedupKeepFirst (xs : List String) : List String := xs.foldl insertNew []

/-- A match accounts for a seen key up to the full-text marker: same
pattern and matched text; same source and page unless the key is a
full-text key. -/
def coversW (m : Match) (k : MatchKey) : Prop :=
  m.pattern = k.1 ∧ m.text = k.2.2.2 ∧
    (k.2.1 = "full_text" ∨ (m.source = k.2.1 ∧ m.page = k.2.2.1))

/-- A match accounts for a seen key exactly (fragment-pass keys). -/
def coversS (m : Match) (k : MatchKey) : Prop :=
  m.pattern = k.1 ∧ m.text = k.2.2.2 ∧ m.source = k.2.1 ∧ m.page = k.2.2.1

/-- Every seen key is accounted for by some emitted match (weak form). -/
def InvW (acc : List Match × List MatchKey) : Prop :=
  ∀ k ∈ acc.2, ∃ m ∈ acc.1, coversW m k

/-- Every seen key is accounted for by some emitted match (strong form,
holds after the fragment pass). -/
def InvS (acc : List Match × List MatchKey) : Prop :=
  ∀ k ∈ acc.2, ∃ m ∈ acc.1, coversS m k

/-! ## Concrete data for counterexamples and witnesses -/

/-- A corpus whose single fragment (source `metadata`, page `None`) holds
the text `secret`. -/
def corpusSecret : Corpus :=
  { fragments := [{ text := "secret", source := "metadata" }] }

/-- A corpus whose single fragment holds the 3-character text `abc`. -/
def corpusAbc : Corpus :=
  { fragments := [{ text := "abc", source := "metadata" }] }

/-- A corpus carrying the phrase `john smith` split at its space across a
`content` fragment and an `annotation` fragment of page 0. -/
def corpusSplit : Corpus :=
  { fragments := [{ text := "john", source := "content", page := some 0 },
                  { text := "smith", source := "annotation", page := some 0 }]
    surfaces_extracted := ["content_streams", "annotations"] }

/-- Two `raw_stream` fragments distinguished only by their location tag. -/
def corpusTwoLoc : Corpus :=
  { fragments :=
      [{ text := "a  b a b", source := "raw_stream", location := some "loc1" },
       { text := "a b", source := "raw_stream", location := some "loc2" }] }

/-- A fragment list whose texts hold the three-fragment join example. -/
def corpusJoin : Corpus :=
  { fragments := [{ text := "a", source := "content" },
                  { text := "", source := "content" },
                  { text := "b", source := "content" }] }

/-- A regex-compile oracle that accepts every pattern and compiles it to a
matcher that never matches (only the success/failure of compilation
matters to the loader). -/
def acceptAllRe : RegexCompiler := fun _ => .ok (fun _ => none)

/-- The spanning match produced for `john smith` over `corpusSplit`. -/
def mJohnSmith : Match :=
  ⟨"john smith", "john smith", "multiple_sources(annotation,content)", none,
    some "spanning_multiple_fragments"⟩

/-- The single literal pattern `a b`. -/
def psTwoLoc : List DenylistPattern := [DenylistPattern.from_string "a b"]

/-- The regex pattern `a b` (no metacharacters). -/
def pTwoLoc : DenylistPattern := DenylistPattern.fromPlainRegex "a b"

/-- The literal pattern's match in the first `corpusTwoLoc` fragment. -/
def mLoc1 : Match := ⟨"a b", "a  b", "raw_stream", none, some "loc1"⟩

/-- The literal pattern's match in the second `corpusTwoLoc` fragment. -/
def mLoc2 : Match := ⟨"a b", "a b", "raw_stream", none, some "loc2"⟩

/-- The tail of a space-join: a leading separator before every further
element (used to relate `joinSpChars` to `String.intercalate`). -/
def sepJoinChars : List String → List Char
  | [] => []
  | a :: as => ' ' :: (a.data ++ sepJoinChars as)

/-! ## Theorems -/

/-- Unfolding of `String.intercalate.go` with the space separator. -/
theorem intercalate_go_eq (as : List String) : ∀ acc : String,
    String.intercalate.go acc " " as = ⟨acc.data ++ sepJoinChars as⟩ := by
  induction as with
  | nil =>
    intro acc
    apply String.ext
    simp [String.intercalate.go, sepJoinChars]
  | cons a as ih =>
    intro acc
    rw [String.intercalate.go, ih]
    apply String.ext
    simp [sepJoinChars, String.data_append]

/-- `joinSpChars` on a non-empty list: head followed by separated tail. -/
theorem joinSpChars_cons (as : List String) : ∀ a : String,
    joinSpChars (a :: as) = a.data ++ sepJoinChars as := by
  induction as with
  | nil => intro a; simp [joinSpChars, sepJoinChars]
  | cons y t ih =>
    intro a
    simp only [joinSpChars, sepJoinChars, ih y]

/-- The character-level space join agrees with `String.intercalate " "`. -/
theorem joinSpChars_eq_intercalate (l : List String) :
    (⟨joinSpChars l⟩ : String) = String.intercalate " " l := by
  rcases l with _ | ⟨a, as⟩
  · rfl
  · rw [String.intercalate, intercalate_go_eq, joinSpChars_cons]

/-- Space count of the separated tail: one joining space per element plus
the elements' own spaces. -/
theorem count_sepJoinChars (as : List String) :
    (sepJoinChars as).count ' ' =
      as.length + (as.map (fun a => a.data.count ' ')).sum := by
  induction as with
  | nil => simp [sepJoinChars]
  | cons a as ih =>
    simp [sepJoinChars, List.count_cons, List.count_append, ih]
    omega

/-- C8, counterexample: a corpus of three fragments whose middle fragment
has empty text; `full_text` drops it, so the result differs from joining
all three fragment texts and has one joining space rather than two. -/
theorem full_text_empty_fragment_cex :
    Corpus.full_text corpusJoin = "a b"
    ∧ String.intercalate " " (corpusJoin.fragments.map (·.text)) = "a  b"
    ∧ ("a b" : String) ≠ "a  b"
    ∧ corpusJoin.fragments.length = 3 :=
  ⟨rfl, rfl, by decide, rfl⟩

/-- C8 (amended): `full_text` equals the texts of the fragments with
non-empty text, in insertion order, joined by exactly one space: it is
`String.intercalate " "` of those texts, and its space count is the number
of such fragments minus one plus the spaces inside the texts themselves. -/
theorem full_text_join_shape (c : Corpus) :
    c.full_text = String.intercalate " "
      ((c.fragments.filter (fun f => f.text != "")).map (·.text))
    ∧ c.full_text.data.count ' ' =
      (((c.fragments.filter (fun f => f.text != "")).map (·.text)).length - 1)
      + (((c.fragments.filter (fun f => f.text != "")).map (·.text)).map
          (fun t => t.data.count ' ')).sum := by
  constructor
  · exact joinSpChars_eq_intercalate _
  · show (Corpus.full_text c).data.count ' ' = _
    rcases hl : (c.fragments.filter (fun f => f.text != "")).map (·.text)
      with _ | ⟨a, as⟩
    · simp [Corpus.full_text, hl, joinSpChars]
    · simp [Corpus.full_text, hl, joinSpChars_cons, List.count_append,
        count_sepJoinChars, List.count_cons]
      omega

/-- C2: for a document whose extraction succeeds, `verify` is PASS when the
pattern list is empty, and otherwise FAIL exactly when `check_corpus`
yields at least one match (carrying the full match list) and PASS when it
yields none; the result always carries the corpus's attempted surfaces and
OCR flag, and no error. -/
theorem verify_ok_decision (c : Corpus) (ps : List DenylistPattern) :
    ((verify (.opened c) ps).exit_code = .FAIL ↔ ps ≠ [] ∧ check_corpus c ps ≠ [])
    ∧ ((verify (.opened c) ps).exit_code = .PASS ↔ ps = [] ∨ check_corpus c ps = [])
    ∧ (verify (.opened c) ps).matchList = (if ps.isEmpty then [] else check_corpus c ps)
    ∧ (verify (.opened c) ps).error = none
    ∧ (verify (.opened c) ps).surfaces_checked = c.surfaces_extracted
    ∧ (verify (.opened c) ps).ocr_performed = c.ocr_performed := by
  rcases ps with _ | ⟨p, ps⟩
  · simp [verify, extract_all]
  · by_cases h : check_corpus c (p :: ps) = []
    · simp [verify, extract_all, h, List.isEmpty]
    · obtain ⟨m, ms, hm⟩ := List.exists_cons_of_ne_nil h
      simp [verify, extract_all, hm, List.isEmpty]

/-- C3, counterexample: `verify` can return ERROR although the document
was opened successfully — when an unguarded extractor operation raises
after the open, `verify`'s catch-all `except Exception` branch produces
ERROR with the `Unexpected error reading PDF: ...` message. -/
theorem verify_error_despite_open_cex :
    (ExtractionOutcome.extractorRaised "boom").openSucceeded = true
    ∧ (verify (.extractorRaised "boom") []).exit_code = .ERROR
    ∧ verify (.extractorRaised "boom") [] =
        ⟨.ERROR, [], some ("Unexpected error reading PDF: " ++ "boom"), [], false⟩ :=
  ⟨rfl, rfl, rfl⟩

/-- C3 (amended): `verify` returns ERROR exactly when the extraction
phase failed — either `fitz.open` raised (`Failed to open PDF: ...`) or
an exception escaped the extractors after a successful open (`Unexpected
error reading PDF: ...`); in both cases the result carries the non-empty
message, an empty match list and no surfaces (no partial corpus
contributes). -/
theorem verify_error_iff (openRes : ExtractionOutcome)
    (ps : List DenylistPattern) :
    ((verify openRes ps).exit_code = .ERROR ↔ openRes.failed = true)
    ∧ (∀ e, openRes = .openFailed e →
        verify openRes ps =
          ⟨.ERROR, [], some ("Failed to open PDF: " ++ e), [], false⟩
        ∧ ("Failed to open PDF: " ++ e) ≠ "")
    ∧ (∀ e, openRes = .extractorRaised e →
        verify openRes ps =
          ⟨.ERROR, [], some ("Unexpected error reading PDF: " ++ e), [], false⟩
        ∧ ("Unexpected error reading PDF: " ++ e) ≠ "") := by
  refine ⟨?_, ?_, ?_⟩
  · cases openRes with
    | opened c =>
      simp only [verify, extract_all, ExtractionOutcome.failed]
      constructor
      · intro h
        by_cases hp : ps.isEmpty <;> by_cases hm : (check_corpus c ps).isEmpty <;>
          simp [hp, hm] at h
      · intro h; cases h
    | openFailed e => exact ⟨fun _ => rfl, fun _ => rfl⟩
    | extractorRaised e => exact ⟨fun _ => rfl, fun _ => rfl⟩
  · rintro e rfl
    refine ⟨rfl, fun h => ?_⟩
    have hd := congrArg String.data h
    simp [String.data_append] at hd
  · rintro e rfl
    refine ⟨rfl, fun h => ?_⟩
    have hd := congrArg String.data h
    simp [String.data_append] at hd

/-- C3, witness: on a concrete failed open, `verify` yields the ERROR
result with its message and no matches or surfaces; on a concrete
post-open extractor exception, the other ERROR result. -/
theorem verify_error_iff_witness :
    (verify (.openFailed "boom") []).exit_code = .ERROR
    ∧ verify (.openFailed "boom") [] =
        ⟨.ERROR, [], some ("Failed to open PDF: " ++ "boom"), [], false⟩
    ∧ ("Failed to open PDF: " ++ "boom") ≠ ""
    ∧ verify (.extractorRaised "oops") [] =
        ⟨.ERROR, [], some ("Unexpected error reading PDF: " ++ "oops"), [], false⟩ :=
  have h1 := verify_error_iff (.openFailed "boom") []
  have h2 := verify_error_iff (.extractorRaised "oops") []
  ⟨h1.1.mpr rfl, (h1.2.1 "boom" rfl).1, (h1.2.1 "boom" rfl).2,
    (h2.2.2 "oops" rfl).1⟩

/-- C5: the hex-string pass of `_extract_text_from_content_stream` uses
the pattern `<([0-9A-Fa-f\s]+)>\s*T[^a-zA-Z]`, whose trailing `[^a-zA-Z]`
rejects the letters `j` and `J`; a hex string immediately preceding the
text-show operator `Tj` or `TJ` is therefore not extracted at all (while
the same hex string before the non-text operator `T*` is). -/
theorem hex_tj_not_extracted :
    extractTextFromContentStream "<48656C6C6F> Tj" = ""
    ∧ extractTextFromContentStream "<48656C6C6F> TJ" = ""
    ∧ extractTextFromContentStream "<48656C6C6F> T*" = "Hello" :=
  ⟨rfl, rfl, rfl⟩

/-- C6: `check_corpus` can return two matches with the same
`(pattern, source, page, matched_text)` tuple: for a single `metadata`
fragment `secret` and the literal pattern `secret`, the fragment pass and
the full-text pass each emit a match with the tuple
`("secret", "metadata", None, "secret")` — the full-text pass keys its
matches under source `full_text` but emits them with the attributed
fragment source. -/
theorem duplicate_match_tuple :
    (check_corpus corpusSecret [DenylistPattern.from_string "secret"]).map
        (fun m => (m.pattern, m.source, m.page, m.text)) =
      [("secret", "metadata", none, "secret"),
       ("secret", "metadata", none, "secret")]
    ∧ ¬ (check_corpus corpusSecret [DenylistPattern.from_string "secret"]).Pairwise
        (fun m1 m2 =>
          (m1.pattern, m1.source, m1.page, m1.text) ≠
            (m2.pattern, m2.source, m2.page, m2.text)) := by
  exact ⟨by decide, by decide⟩

/-- Prepending a non-empty all-whitespace run satisfies a leading `\s+`
token when the remaining tokens match the remaining text. -/
theorem matchLen_wsPlus_cons (ts : List LitTok) (d : Char) (ds : List Char)
    (hd : isWS d = true) :
    matchLen (LitTok.wsPlus :: ts) (d :: ds) =
      match matchLen (LitTok.wsPlus :: ts) ds with
      | some n => some (n + 1)
      | none => (matchLen ts ds).map (· + 1) := by
  simp [matchLen, hd]

theorem matchLen_wsPlus_prepend (ts : List LitTok) (rest : List Char)
    (h : (matchLen ts rest).isSome) :
    ∀ ws : List Char, ws ≠ [] → (∀ c ∈ ws, isWS c) →
      (matchLen (LitTok.wsPlus :: ts) (ws ++ rest)).isSome := by
  intro ws
  induction ws with
  | nil => intro h1; exact absurd rfl h1
  | cons w ws ih =>
    intro _ hws
    have hw : isWS w = true := hws w (by simp)
    rw [List.cons_append, matchLen_wsPlus_cons _ _ _ hw]
    rcases ws with _ | ⟨w2, ws2⟩
    · rw [List.nil_append]
      rcases hm : matchLen (LitTok.wsPlus :: ts) rest with _ | n
      · rcases Option.isSome_iff_exists.mp h with ⟨n, hn⟩
        simp [hn]
      · simp
    · have hs := ih (by simp) (fun c hc => hws c (by simp [hc]))
      rcases hm : matchLen (LitTok.wsPlus :: ts) (w2 :: ws2 ++ rest) with _ | n
      · rw [hm] at hs; simp at hs
      · simp

/-- A compiled literal pattern matches, at the start, every space
expansion of its source string, whatever follows. -/
theorem matchLen_of_spaceExpand {s t : List Char} (h : SpaceExpand s t) :
    ∀ rest : List Char, (matchLen (compileLit s) (t ++ rest)).isSome := by
  induction h with
  | nil => intro rest; simp [compileLit, matchLen]
  | @char c d s t hc hcd _ ih =>
    intro rest
    simp only [compileLit, List.map_cons, if_neg hc, List.cons_append, matchLen,
      hcd, if_true]
    rcases Option.isSome_iff_exists.mp (ih rest) with ⟨n, hn⟩
    simp [compileLit] at hn
    simp [hn]
  | @space s t ws hne hws _ ih =>
    intro rest
    simp only [compileLit, List.map_cons, if_pos rfl, List.append_assoc]
    exact matchLen_wsPlus_prepend _ _ (by simpa [compileLit] using ih rest) ws hne hws

/-- A successful anchored match gives a successful search. -/
theorem litSearchFrom_isSome (ts : List LitTok) (t : List Char)
    (h : (matchLen ts t).isSome) : (litSearchFrom ts t).isSome := by
  rcases t with _ | ⟨d, ds⟩
  · rcases Option.isSome_iff_exists.mp h with ⟨n, hn⟩
    simp [litSearchFrom, hn]
  · rcases Option.isSome_iff_exists.mp h with ⟨n, hn⟩
    simp [litSearchFrom, hn]

/-- C4, counterexample: the literal pattern `a  b` (two spaces) compiles
each space to its own `\s+`, demanding at least two whitespace characters;
it does not match `a b`, the text obtained by replacing the two-space run
with a one-space run, though it does match its own text. -/
theorem from_string_run_collapse_cex :
    (DenylistPattern.from_string "a  b").search "a b" = none
    ∧ (DenylistPattern.from_string "a  b").search "a  b" = some "a  b" :=
  ⟨rfl, rfl⟩

/-- C4 (amended): a literal (non-regex) string compiles to a
case-insensitive matcher with every metacharacter matched literally and
each individual space rewritten to one-or-more-whitespace, so the matcher
matches every text obtained from the string by changing letter case and
replacing each space character with some non-empty whitespace run (a run
of `k` spaces hence requires at least `k` whitespace characters, and
non-space whitespace in the pattern stays literal). -/
theorem from_string_space_expansion (s t : String)
    (h : SpaceExpand s.data t.data) :
    ∃ m, (DenylistPattern.from_string s).search t = some m := by
  have h1 := matchLen_of_spaceExpand h []
  rw [List.append_nil] at h1
  have h2 := litSearchFrom_isSome _ _ h1
  rcases Option.isSome_iff_exists.mp h2 with ⟨cs, hcs⟩
  exact ⟨⟨cs⟩, by simp [DenylistPattern.from_string, litSearch, hcs]⟩

/-- C4, witness: `a b` matches `A \t B`, where the single space is
replaced by the whitespace run space-tab-space and the case differs. -/
theorem from_string_space_expansion_witness :
    ∃ m, (DenylistPattern.from_string "a b").search "A \t B" = some m :=
  from_string_space_expansion "a b" "A \t B"
    (show SpaceExpand ['a', ' ', 'b'] ['A', ' ', '\t', ' ', 'B'] from
      .char (by decide) (by decide)
        (.space [' ', '\t', ' '] (by decide) (by decide)
          (.char (by decide) (by decide) .nil)))

/-- When a pattern matches no fragment, the fragment pass over that single
pattern leaves the accumulator unchanged. -/
theorem fragmentFold_no_match (dp : DenylistPattern) :
    ∀ (frags : List TextFragment) (acc : List Match × List MatchKey),
      (∀ f ∈ frags, dp.search f.text = none) →
      frags.foldl
        (fun acc f => if f.text = "" then acc else [dp].foldl (fragmentStep f) acc)
        acc = acc := by
  intro frags
  induction frags with
  | nil => intro acc _; rfl
  | cons f fs ih =>
    intro acc hall
    have hf : dp.search f.text = none := hall f (by simp)
    have hstep : (if f.text = "" then acc
        else [dp].foldl (fragmentStep f) acc) = acc := by
      by_cases ht : f.text = ""
      · simp [ht]
      · simp [ht, fragmentStep, hf]
    rw [List.foldl_cons, hstep]
    exact ih acc (fun g hg => hall g (by simp [hg]))

/-- C1: when a literal pattern's phrase occurs in the space-joined
concatenation of the corpus's fragment texts but in no single fragment
(the split-at-whitespace scenario), `check_corpus` returns a spanning
match and `verify` on the opened document FAILs. -/
theorem fragmentation_invariance (c : Corpus) (s : String)
    (hfull : c.full_text ≠ "")
    (hmatch : ∃ t, (DenylistPattern.from_string s).search c.full_text = some t)
    (hfrag : ∀ f ∈ c.fragments,
      (DenylistPattern.from_string s).search f.text = none) :
    (∃ m ∈ check_corpus c [DenylistPattern.from_string s],
        m.location = some "spanning_multiple_fragments")
    ∧ (verify (.opened c) [DenylistPattern.from_string s]).exit_code = .FAIL := by
  obtain ⟨t, ht⟩ := hmatch
  have hfp : fragmentPass c [DenylistPattern.from_string s] = ([], []) :=
    fragmentFold_no_match _ c.fragments ([], []) hfrag
  have hcc : check_corpus c [DenylistPattern.from_string s] =
      [⟨(DenylistPattern.from_string s).original, t,
        attributeSource c.fragments t, none,
        some "spanning_multiple_fragments"⟩] := by
    unfold check_corpus
    rw [hfp]
    simp [hfull, fullTextPass, fullTextStep, ht]
  refine ⟨⟨_, by rw [hcc]; exact List.mem_singleton.mpr rfl, rfl⟩, ?_⟩
  simp [verify, extract_all, List.isEmpty, hcc]

/-- C1, witness: the phrase `john smith` split at its space across two
fragments is reported as a spanning match and the document FAILs. -/
theorem fragmentation_invariance_witness :
    (∃ m ∈ check_corpus corpusSplit [DenylistPattern.from_string "john smith"],
        m.location = some "spanning_multiple_fragments")
    ∧ (verify (.opened corpusSplit)
        [DenylistPattern.from_string "john smith"]).exit_code = .FAIL :=
  fragmentation_invariance corpusSplit "john smith" (by decide)
    ⟨"john smith", by decide⟩ (by decide)

/-- The per-line loop of `load_denylist` agrees with the declarative view:
fail on the first invalid regex line, citing its 1-based number, else
return the accumulated patterns followed by every line's pattern. -/
theorem loadLines_eq_spec (compileRe : RegexCompiler) :
    ∀ (ls : List String) (acc : List DenylistPattern) (n : Nat),
      loadLines compileRe acc n ls =
        match firstBadRegexFrom compileRe n ls with
        | some (k, r, e) =>
          .error ("Invalid regex on line " ++ toString k ++ ": " ++
            ("Invalid regex pattern \x27" ++ r ++ "\x27: " ++ e))
        | none => .ok (acc ++ ls.filterMap (lineToPat compileRe)) := by
  intro ls
  induction ls with
  | nil => intro acc n; simp [loadLines, firstBadRegexFrom]
  | cons l ls ih =>
    intro acc n
    by_cases hA : stripS l = ""
    · simp [loadLines, firstBadRegexFrom, classifyLine, lineToPat, hA, ih]
    · by_cases hB : startsWithB (stripS l) "#" = true
      · simp [loadLines, firstBadRegexFrom, classifyLine, lineToPat, hA, hB, ih]
      · by_cases hC : startsWithB (stripS l) "regex:" = true
        · by_cases hD : stripS (dropChars (stripS l) 6) = ""
          · simp [loadLines, firstBadRegexFrom, classifyLine, lineToPat,
              hA, hB, hC, hD, ih]
          · rcases hE : compileRe (stripS (dropChars (stripS l) 6)) with e | m
            · simp [loadLines, firstBadRegexFrom, classifyLine, lineToPat,
                from_string_regex, hA, hB, hC, hD, hE]
            · simp [loadLines, firstBadRegexFrom, classifyLine, lineToPat,
                from_string_regex, hA, hB, hC, hD, hE, ih]
        · simp [loadLines, firstBadRegexFrom, classifyLine, lineToPat,
            hA, hB, hC, ih]

/-- C9, counterexample: the line `regex:` (empty remainder after the
prefix) is silently skipped — no pattern is compiled from its trimmed
remainder even though the remainder (the empty regex) compiles. -/
theorem load_denylist_empty_regex_line_cex :
    load_denylist acceptAllRe [] (some ["regex:"]) =
      .ok ([] : List DenylistPattern) := rfl

/-- C9 (amended): `load_denylist` processes the file one pattern per line:
blank lines, lines beginning with `#`, and `regex:` lines whose trimmed
remainder is empty are ignored; a `regex:` line with non-empty trimmed
remainder compiles it as a case-insensitive multiline regex and any other
non-empty line as a literal pattern; an invalid regex yields an error
citing the 1-based number of the first offending line, and no pattern
list is returned. -/
theorem load_denylist_file_characterization (compileRe : RegexCompiler)
    (lines : List String) :
    load_denylist compileRe [] (some lines) = loadDenylistSpec compileRe lines := by
  have h := loadLines_eq_spec compileRe lines [] 1
  simpa [load_denylist, loadDenylistSpec] using h

/-- A predicate preserved by each step is preserved by the fold. -/
theorem foldl_preserve {α β : Type _} (step : β → α → β) (P : β → Prop)
    (hstep : ∀ acc a, P acc → P (step acc a)) :
    ∀ (l : List α) (acc : β), P acc → P (l.foldl step acc) := by
  intro l
  induction l with
  | nil => intro acc h; exact h
  | cons x xs ih => intro acc h; exact ih _ (hstep acc x h)

/-- The fragment step never drops an emitted match. -/
theorem fragmentStep_mem_matches (f : TextFragment)
    (acc : List Match × List MatchKey) (dp : DenylistPattern) {m : Match}
    (h : m ∈ acc.1) : m ∈ (fragmentStep f acc dp).1 := by
  rcases hs : dp.search f.text with _ | t
  · simpa [fragmentStep, hs] using h
  · simp only [fragmentStep, hs]
    split
    · exact h
    · simp [h]

/-- The fragment step never drops a seen key. -/
theorem fragmentStep_mem_seen (f : TextFragment)
    (acc : List Match × List MatchKey) (dp : DenylistPattern) {k : MatchKey}
    (h : k ∈ acc.2) : k ∈ (fragmentStep f acc dp).2 := by
  rcases hs : dp.search f.text with _ | t
  · simpa [fragmentStep, hs] using h
  · simp only [fragmentStep, hs]
    split
    · exact h
    · simp [h]

/-- The full-text step never drops an emitted match. -/
theorem fullTextStep_mem_matches (c : Corpus)
    (acc : List Match × List MatchKey) (dp : DenylistPattern) {m : Match}
    (h : m ∈ acc.1) : m ∈ (fullTextStep c acc dp).1 := by
  rcases hs : dp.search c.full_text with _ | t
  · simpa [fullTextStep, hs] using h
  · simp only [fullTextStep, hs]
    split
    · exact h
    · simp [h]

/-- The full-text step never drops a seen key. -/
theorem fullTextStep_mem_seen (c : Corpus)
    (acc : List Match × List MatchKey) (dp : DenylistPattern) {k : MatchKey}
    (h : k ∈ acc.2) : k ∈ (fullTextStep c acc dp).2 := by
  rcases hs : dp.search c.full_text with _ | t
  · simpa [fullTextStep, hs] using h
  · simp only [fullTextStep, hs]
    split
    · exact h
    · simp [h]

/-- The fragment step preserves the strong seen-key invariant. -/
theorem invS_fragmentStep (f : TextFragment)
    (acc : List Match × List MatchKey) (dp : DenylistPattern)
    (h : InvS acc) : InvS (fragmentStep f acc dp) := by
  rcases hs : dp.search f.text with _ | t
  · simpa [fragmentStep, hs] using h
  · simp only [fragmentStep, hs]
    split
    · exact h
    · intro k hk
      rcases List.mem_cons.mp hk with rfl | hk'
      · exact ⟨_, List.mem_append_right _ (List.mem_singleton.mpr rfl),
          rfl, rfl, rfl, rfl⟩
      · rcases h k hk' with ⟨m, hm, hcov⟩
        exact ⟨m, List.mem_append_left _ hm, hcov⟩

/-- The strong invariant implies the weak one. -/
theorem invW_of_invS (acc : List Match × List MatchKey) (h : InvS acc) :
    InvW acc := by
  intro k hk
  rcases h k hk with ⟨m, hm, h1, h2, h3, h4⟩
  exact ⟨m, hm, h1, h2, Or.inr ⟨h3, h4⟩⟩

/-- The fragment step preserves the weak seen-key invariant. -/
theorem invW_fragmentStep (f : TextFragment)
    (acc : List Match × List MatchKey) (dp : DenylistPattern)
    (h : InvW acc) : InvW (fragmentStep f acc dp) := by
  rcases hs : dp.search f.text with _ | t
  · simpa [fragmentStep, hs] using h
  · simp only [fragmentStep, hs]
    split
    · exact h
    · intro k hk
      rcases List.mem_cons.mp hk with rfl | hk'
      · exact ⟨_, List.mem_append_right _ (List.mem_singleton.mpr rfl),
          rfl, rfl, Or.inr ⟨rfl, rfl⟩⟩
      · rcases h k hk' with ⟨m, hm, hcov⟩
        exact ⟨m, List.mem_append_left _ hm, hcov⟩

/-- The full-text step preserves the weak seen-key invariant. -/
theorem invW_fullTextStep (c : Corpus)
    (acc : List Match × List MatchKey) (dp : DenylistPattern)
    (h : InvW acc) : InvW (fullTextStep c acc dp) := by
  rcases hs : dp.search c.full_text with _ | t
  · simpa [fullTextStep, hs] using h
  · simp only [fullTextStep, hs]
    split
    · exact h
    · intro k hk
      rcases List.mem_cons.mp hk with rfl | hk'
      · exact ⟨_, List.mem_append_right _ (List.mem_singleton.mpr rfl),
          rfl, rfl, Or.inl rfl⟩
      · rcases h k hk' with ⟨m, hm, hcov⟩
        exact ⟨m, List.mem_append_left _ hm, hcov⟩

/-- A pattern that matches a fragment leaves its key in the seen set of
the per-fragment pattern fold. -/
theorem fragFold_key (f : TextFragment) :
    ∀ (ps : List DenylistPattern) (acc : List Match × List MatchKey)
      (q : DenylistPattern) (t : String), q ∈ ps → q.search f.text = some t →
      ((q.original, f.source, f.page, t) : MatchKey) ∈
        (ps.foldl (fragmentStep f) acc).2 := by
  intro ps
  induction ps with
  | nil => intro acc q t hq; exact absurd hq (List.not_mem_nil q)
  | cons p ps ih =>
    intro acc q t hq hs
    rcases List.mem_cons.mp hq with rfl | hq'
    · have hmem : ((q.original, f.source, f.page, t) : MatchKey) ∈
          (fragmentStep f acc q).2 := by
        simp only [fragmentStep, hs]
        split
        · assumption
        · exact List.mem_cons_self _ _
      exact foldl_preserve _ (fun acc => _ ∈ acc.2)
        (fun acc a h => fragmentStep_mem_seen f acc a h) ps _ hmem
    · exact ih _ q t hq' hs

/-- A pattern that matches a non-empty fragment of the corpus leaves its
key in the seen set of the fragment pass. -/
theorem fragmentPass_key (c : Corpus) (ps : List DenylistPattern)
    (f : TextFragment) (q : DenylistPattern) (t : String)
    (hf : f ∈ c.fragments) (hne : f.text ≠ "") (hq : q ∈ ps)
    (hs : q.search f.text = some t) :
    ((q.original, f.source, f.page, t) : MatchKey) ∈ (fragmentPass c ps).2 := by
  have hstep : ∀ (acc : List Match × List MatchKey) (g : TextFragment),
      ((q.original, f.source, f.page, t) : MatchKey) ∈ acc.2 →
      ((q.original, f.source, f.page, t) : MatchKey) ∈
        (if g.text = "" then acc else ps.foldl (fragmentStep g) acc).2 := by
    intro acc g h
    by_cases hg : g.text = ""
    · simpa [hg] using h
    · simp only [hg, if_false]
      exact foldl_preserve (fragmentStep g)
        (fun acc => ((q.original, f.source, f.page, t) : MatchKey) ∈ acc.2)
        (fun acc a h => fragmentStep_mem_seen g acc a h) ps acc h
  suffices hgen : ∀ (frags : List TextFragment)
      (acc : List Match × List MatchKey), f ∈ frags →
      ((q.original, f.source, f.page, t) : MatchKey) ∈
        (frags.foldl
          (fun acc g => if g.text = "" then acc else ps.foldl (fragmentStep g) acc)
          acc).2 by
    exact hgen c.fragments ([], []) hf
  intro frags
  induction frags with
  | nil => intro acc hf0; exact absurd hf0 (List.not_mem_nil f)
  | cons g gs ih =>
    intro acc hf0
    rw [List.foldl_cons]
    rcases List.mem_cons.mp hf0 with rfl | hf'
    · have hmem : ((q.original, f.source, f.page, t) : MatchKey) ∈
          (if f.text = "" then acc else ps.foldl (fragmentStep f) acc).2 := by
        simp only [hne, if_false]
        exact fragFold_key f ps acc q t hq hs
      exact foldl_preserve
        (fun acc g => if g.text = "" then acc else ps.foldl (fragmentStep g) acc)
        (fun acc => ((q.original, f.source, f.page, t) : MatchKey) ∈ acc.2)
        (fun acc a h => hstep acc a h) gs _ hmem
    · exact ih _ hf'

/-- A pattern that matches the full text leaves its full-text key in the
seen set of the full-text fold. -/
theorem fullTextFold_key (c : Corpus) :
    ∀ (ps : List DenylistPattern) (acc : List Match × List MatchKey)
      (q : DenylistPattern) (t : String), q ∈ ps →
      q.search c.full_text = some t →
      ((q.original, "full_text", (none : Option Nat), t) : MatchKey) ∈
        (ps.foldl (fullTextStep c) acc).2 := by
  intro ps
  induction ps with
  | nil => intro acc q t hq; exact absurd hq (List.not_mem_nil q)
  | cons p ps ih =>
    intro acc q t hq hs
    rcases List.mem_cons.mp hq with rfl | hq'
    · have hmem : ((q.original, "full_text", (none : Option Nat), t) : MatchKey) ∈
          (fullTextStep c acc q).2 := by
        simp only [fullTextStep, hs]
        split
        · assumption
        · exact List.mem_cons_self _ _
      exact foldl_preserve _ (fun acc => _ ∈ acc.2)
        (fun acc a h => fullTextStep_mem_seen c acc a h) ps _ hmem
    · exact ih _ q t hq' hs

/-- Inversion for the per-fragment pattern fold: every emitted match is
old or comes from a matching pattern with the fragment's fields. -/
theorem fragFold_mem_inv (f : TextFragment) :
    ∀ (ps : List DenylistPattern) (acc : List Match × List MatchKey)
      (m : Match), m ∈ (ps.foldl (fragmentStep f) acc).1 →
      m ∈ acc.1 ∨ ∃ q ∈ ps, q.search f.text = some m.text
        ∧ m.pattern = q.original ∧ m.source = f.source ∧ m.page = f.page := by
  intro ps
  induction ps with
  | nil => intro acc m hm; exact Or.inl hm
  | cons p ps ih =>
    intro acc m hm
    rcases ih _ m hm with hold | ⟨q, hq, rest⟩
    · rcases hs : p.search f.text with _ | t
      · rw [List.foldl_cons] at hm
        left
        simpa [fragmentStep, hs] using hold
      · simp only [fragmentStep, hs] at hold
        rcases hk : (decide (((p.original, f.source, f.page, t) : MatchKey)
            ∈ acc.2)) with _ | _
        · rw [if_neg (by simpa using hk)] at hold
          rcases List.mem_append.mp hold with h1 | h2
          · exact Or.inl h1
          · right
            rcases List.mem_singleton.mp h2 with rfl
            exact ⟨p, List.mem_cons_self _ _, hs, rfl, rfl, rfl⟩
        · rw [if_pos (by simpa using hk)] at hold
          exact Or.inl hold
    · exact Or.inr ⟨q, List.mem_cons_of_mem _ hq, rest⟩

/-- Inversion for the fragment pass: every emitted match comes from a
pattern matching a non-empty fragment, with the fragment's fields. -/
theorem fragmentPass_mem_inv (c : Corpus) (ps : List DenylistPattern)
    (m : Match) (hm : m ∈ (fragmentPass c ps).1) :
    ∃ f ∈ c.fragments, f.text ≠ "" ∧ ∃ q ∈ ps,
      q.search f.text = some m.text ∧ m.pattern = q.original
      ∧ m.source = f.source ∧ m.page = f.page := by
  unfold fragmentPass at hm
  suffices hgen : ∀ (frags : List TextFragment)
      (acc : List Match × List MatchKey), m ∈ (frags.foldl
        (fun acc f => if f.text = "" then acc else ps.foldl (fragmentStep f) acc)
        acc).1 →
      m ∈ acc.1 ∨ ∃ f ∈ frags, f.text ≠ "" ∧ ∃ q ∈ ps,
        q.search f.text = some m.text ∧ m.pattern = q.original
        ∧ m.source = f.source ∧ m.page = f.page by
    rcases hgen c.fragments ([], []) hm with h | h
    · exact absurd h (List.not_mem_nil m)
    · exact h
  intro frags
  induction frags with
  | nil => intro acc h; exact Or.inl h
  | cons g gs ih =>
    intro acc h
    rw [List.foldl_cons] at h
    rcases ih _ h with hold | ⟨f, hf, rest⟩
    · by_cases hg : g.text = ""
      · rw [if_pos hg] at hold
        exact Or.inl hold
      · rw [if_neg hg] at hold
        rcases fragFold_mem_inv g ps acc m hold with h1 | ⟨q, hq, h2⟩
        · exact Or.inl h1
        · exact Or.inr ⟨g, List.mem_cons_self _ _, hg, q, hq, h2⟩
    · exact Or.inr ⟨f, List.mem_cons_of_mem _ hf, rest⟩

/-- Inversion for the full-text fold: every emitted match is old or is a
spanning match of a pattern matching the full text, with the marker
location, no page, and the attributed source. -/
theorem fullTextFold_mem_inv (c : Corpus) :
    ∀ (ps : List DenylistPattern) (acc : List Match × List MatchKey)
      (m : Match), m ∈ (ps.foldl (fullTextStep c) acc).1 →
      m ∈ acc.1 ∨ ((∃ q ∈ ps, q.search c.full_text = some m.text
          ∧ m.pattern = q.original)
        ∧ m.source = attributeSource c.fragments m.text ∧ m.page = none
        ∧ m.location = some "spanning_multiple_fragments") := by
  intro ps
  induction ps with
  | nil => intro acc m hm; exact Or.inl hm
  | cons p ps ih =>
    intro acc m hm
    rcases ih _ m hm with hold | ⟨⟨q, hq, h1⟩, h2⟩
    · rcases hs : p.search c.full_text with _ | t
      · left
        simpa [fullTextStep, hs] using hold
      · simp only [fullTextStep, hs] at hold
        rcases hk : (decide (((p.original, "full_text", (none : Option Nat), t) :
            MatchKey) ∈ acc.2)) with _ | _
        · rw [if_neg (by simpa using hk)] at hold
          rcases List.mem_append.mp hold with h1 | h2
          · exact Or.inl h1
          · right
            rcases List.mem_singleton.mp h2 with rfl
            exact ⟨⟨p, List.mem_cons_self _ _, hs, rfl⟩, rfl, rfl, rfl⟩
        · rw [if_pos (by simpa using hk)] at hold
          exact Or.inl hold
    · exact Or.inr ⟨⟨q, List.mem_cons_of_mem _ hq, h1⟩, h2⟩

/-- The attribution step updates exactly on qualifying fragments. -/
theorem attrStep_eq_qual (ml : List Char) (acc : String × List String)
    (f : TextFragment) :
    attrStep ml acc f =
      if qualB ml f then (f.source, insertNew acc.2 f.source) else acc := by
  by_cases hft : f.text = ""
  · simp [attrStep, qualB, hft]
  · by_cases hcond : (3 < ml.length && overlap3 ml (lowerL f.text.data)) = true
    · simp [attrStep, qualB, hft, hcond]
    · simp [attrStep, qualB, hft, hcond]

/-- The attribution fold computes the last qualifying source (default the
initial one) and the set of qualifying sources. -/
theorem attr_fold_eq (ml : List Char) :
    ∀ (frags : List TextFragment) (s0 : String) (l0 : List String),
      frags.foldl (attrStep ml) (s0, l0) =
        (((frags.filter (qualB ml)).map (·.source)).getLastD s0,
         ((frags.filter (qualB ml)).map (·.source)).foldl insertNew l0) := by
  intro frags
  induction frags with
  | nil => intro s0 l0; simp
  | cons f fs ih =>
    intro s0 l0
    rw [List.foldl_cons, attrStep_eq_qual]
    by_cases hq : qualB ml f = true
    · rw [if_pos hq, List.filter_cons_of_pos hq, List.map_cons,
        List.getLastD_cons, List.foldl_cons, ih]
    · rw [if_neg hq, List.filter_cons_of_neg (by simpa using hq), ih]

/-- The last element (with default) of a non-empty list is an element. -/
theorem getLastD_mem_of_ne_nil :
    ∀ (l : List String) (d : String), l ≠ [] → l.getLastD d ∈ l
  | [], _, h => absurd rfl h
  | [x], d, _ => by simp [List.getLastD_cons, List.getLastD_nil]
  | x :: y :: t, d, _ => by
    rw [List.getLastD_cons]
    exact List.mem_cons_of_mem _ (getLastD_mem_of_ne_nil (y :: t) x (by simp))

/-- Membership in `insertNew`. -/
theorem mem_insertNew (xs : List String) (s a : String) :
    a ∈ insertNew xs s ↔ a ∈ xs ∨ a = s := by
  by_cases h : s ∈ xs
  · simp only [insertNew, if_pos h]
    constructor
    · exact Or.inl
    · rintro (ha | rfl)
      · exact ha
      · exact h
  · simp [insertNew, if_neg h]

/-- Membership in the de-duplicating fold. -/
theorem mem_foldl_insertNew :
    ∀ (xs l0 : List String) (a : String),
      a ∈ xs.foldl insertNew l0 ↔ a ∈ l0 ∨ a ∈ xs := by
  intro xs
  induction xs with
  | nil => intro l0 a; simp
  | cons x xs ih =>
    intro l0 a
    rw [List.foldl_cons, ih, mem_insertNew]
    constructor
    · rintro ((h | rfl) | h)
      · exact Or.inl h
      · exact Or.inr (List.mem_cons_self _ _)
      · exact Or.inr (List.mem_cons_of_mem _ h)
    · rintro (h | h)
      · exact Or.inl (Or.inl h)
      · rcases List.mem_cons.mp h with rfl | h'
        · exact Or.inl (Or.inr rfl)
        · exact Or.inr h'

/-- The de-duplication is empty exactly on the empty list. -/
theorem dedupKeepFirst_nil_iff (xs : List String) :
    dedupKeepFirst xs = [] ↔ xs = [] := by
  constructor
  · intro h
    rcases xs with _ | ⟨x, xs⟩
    · rfl
    · have hx : x ∈ dedupKeepFirst (x :: xs) :=
        (mem_foldl_insertNew _ _ _).mpr (Or.inr (List.mem_cons_self _ _))
      rw [h] at hx
      exact absurd hx (List.not_mem_nil x)
  · rintro rfl; rfl

/-- A singleton de-duplication means every element is that value. -/
theorem dedupKeepFirst_singleton (xs : List String) (s : String)
    (h : dedupKeepFirst xs = [s]) : xs ≠ [] ∧ ∀ a ∈ xs, a = s := by
  constructor
  · rintro rfl
    simp [dedupKeepFirst] at h
  · intro a ha
    have : a ∈ dedupKeepFirst xs :=
      (mem_foldl_insertNew _ _ _).mpr (Or.inr ha)
    rw [h] at this
    exact List.mem_singleton.mp this

/-- Characterization of the spanning-match source attribution: no
qualifying source gives the `multiple_sources` default, a single
qualifying source gives that source, several give the composite sorted
label. -/
theorem attributeSource_characterization (frags : List TextFragment)
    (t : String) :
    (dedupKeepFirst (qualSourcesList frags t) = [] →
      attributeSource frags t = "multiple_sources")
    ∧ (∀ s, dedupKeepFirst (qualSourcesList frags t) = [s] →
      attributeSource frags t = s)
    ∧ (1 < (dedupKeepFirst (qualSourcesList frags t)).length →
      attributeSource frags t = "multiple_sources(" ++ String.intercalate ","
        (sortStrings (dedupKeepFirst (qualSourcesList frags t))) ++ ")") := by
  have hattr : attributeSource frags t =
      if 1 < (dedupKeepFirst (qualSourcesList frags t)).length then
        "multiple_sources(" ++ String.intercalate ","
          (sortStrings (dedupKeepFirst (qualSourcesList frags t))) ++ ")"
      else (qualSourcesList frags t).getLastD "multiple_sources" := by
    simp only [attributeSource, attr_fold_eq]
    rfl
  refine ⟨?_, ?_, ?_⟩
  · intro hQ
    have hq : qualSourcesList frags t = [] := (dedupKeepFirst_nil_iff _).mp hQ
    rw [hattr, if_neg (by rw [hQ]; simp), hq, List.getLastD_nil]
  · intro s hQ
    rcases dedupKeepFirst_singleton _ _ hQ with ⟨hne, hall⟩
    rw [hattr, if_neg (by rw [hQ]; simp)]
    exact hall _ (getLastD_mem_of_ne_nil _ _ hne)
  · intro hlen
    rw [hattr, if_pos hlen]

/-- C7, counterexample: for matched text `abc` (length 3) the attribution
loop is skipped by the `len(matched_lower) > 3` guard, so the spanning
match's source is `multiple_sources` although exactly one fragment source
shares a ≥3-character substring overlap with the matched text. -/
theorem spanning_source_len3_cex :
    (check_corpus corpusAbc [DenylistPattern.from_string "abc"]).getLast? =
      some ⟨"abc", "abc", "multiple_sources", none,
        some "spanning_multiple_fragments"⟩
    ∧ (corpusAbc.fragments.filter (fun f =>
        overlap3 (lowerL "abc".data) (lowerL f.text.data))).map (·.source) =
      ["metadata"]
    ∧ ("multiple_sources" : String) ≠ "metadata" :=
  ⟨by decide, by decide, by decide⟩

/-- C7 (amended): every match appended by the full-text pass has location
`spanning_multiple_fragments`, page `None`, and a source determined by the
fragments sharing a ≥3-character substring overlap with the matched text,
with attribution only attempted for matched texts longer than 3
characters: no qualifying source gives `multiple_sources`, exactly one
gives that source, several give the composite label of the sorted
qualifying sources. -/
theorem spanning_match_shape (c : Corpus) (ps : List DenylistPattern)
    (acc : List Match × List MatchKey) (m : Match)
    (hm : m ∈ (fullTextPass c ps acc).1) :
    m ∈ acc.1 ∨
      (m.location = some "spanning_multiple_fragments" ∧ m.page = none
        ∧ (dedupKeepFirst (qualSourcesList c.fragments m.text) = [] →
            m.source = "multiple_sources")
        ∧ (∀ s, dedupKeepFirst (qualSourcesList c.fragments m.text) = [s] →
            m.source = s)
        ∧ (1 < (dedupKeepFirst (qualSourcesList c.fragments m.text)).length →
            m.source = "multiple_sources(" ++ String.intercalate ","
              (sortStrings (dedupKeepFirst (qualSourcesList c.fragments m.text)))
              ++ ")")) := by
  unfold fullTextPass at hm
  rcases fullTextFold_mem_inv c ps acc m hm with hold | ⟨_, hsrc, hpage, hloc⟩
  · exact Or.inl hold
  · right
    have hchar := attributeSource_characterization c.fragments m.text
    refine ⟨hloc, hpage, ?_, ?_, ?_⟩
    · intro h; rw [hsrc]; exact hchar.1 h
    · intro s h; rw [hsrc]; exact hchar.2.1 s h
    · intro h; rw [hsrc]; exact hchar.2.2 h

/-- C7, witness: the spanning match for `john smith` over the two-source
corpus carries the marker location, no page, and the composite label of
both qualifying sources. -/
theorem spanning_match_shape_witness :
    mJohnSmith ∈ (([], []) : List Match × List MatchKey).1 ∨
      (mJohnSmith.location = some "spanning_multiple_fragments"
        ∧ mJohnSmith.page = none
        ∧ (dedupKeepFirst (qualSourcesList corpusSplit.fragments mJohnSmith.text)
              = [] → mJohnSmith.source = "multiple_sources")
        ∧ (∀ s, dedupKeepFirst
              (qualSourcesList corpusSplit.fragments mJohnSmith.text) = [s] →
            mJohnSmith.source = s)
        ∧ (1 < (dedupKeepFirst
              (qualSourcesList corpusSplit.fragments mJohnSmith.text)).length →
            mJohnSmith.source = "multiple_sources(" ++ String.intercalate ","
              (sortStrings (dedupKeepFirst
                (qualSourcesList corpusSplit.fragments mJohnSmith.text))) ++ ")")) :=
  spanning_match_shape corpusSplit [DenylistPattern.from_string "john smith"]
    ([], []) mJohnSmith (by decide)

/-- C10, counterexample: appending the regex pattern `a b` (same
`original` as the literal pattern `a b`) to the pattern list removes the
match reported at location `loc2`: in the extended run the appended
pattern claims the key `("a b", "raw_stream", None, "a b")` in the first
fragment (location `loc1`), so the second fragment's match is suppressed
and no match with identical pattern, matched text, source, page and
location survives. -/
theorem check_corpus_append_cex :
    mLoc2 ∈ check_corpus corpusTwoLoc psTwoLoc
    ∧ mLoc2 ∉ check_corpus corpusTwoLoc (psTwoLoc ++ [pTwoLoc]) :=
  ⟨by decide, by decide⟩

/-- C10 (amended): every match of `check_corpus(C, ps)` has a counterpart
in `check_corpus(C, ps ++ [p])` with the same pattern and matched text;
moreover every pattern of `ps` matching a non-empty fragment is reported
in the extended run with that pattern, matched text, and the fragment's
source and page — only the location (and, for spanning matches, the
attributed source) of the counterpart may differ. -/
theorem check_corpus_append_monotone (c : Corpus) (ps : List DenylistPattern)
    (p : DenylistPattern) :
    (∀ m ∈ check_corpus c ps, ∃ m2 ∈ check_corpus c (ps ++ [p]),
        m2.pattern = m.pattern ∧ m2.text = m.text)
    ∧ (∀ f ∈ c.fragments, f.text ≠ "" → ∀ q ∈ ps, ∀ t : String,
        q.search f.text = some t →
        ∃ m2 ∈ check_corpus c (ps ++ [p]),
          m2.pattern = q.original ∧ m2.text = t
          ∧ m2.source = f.source ∧ m2.page = f.page) := by
  have hInvS : InvS (fragmentPass c (ps ++ [p])) := by
    unfold fragmentPass
    refine foldl_preserve _ InvS ?_ c.fragments ([], []) ?_
    · intro acc g h
      by_cases hg : g.text = ""
      · simpa [hg] using h
      · simp only [hg, if_false]
        exact foldl_preserve (fragmentStep g) InvS
          (fun acc a h => invS_fragmentStep g acc a h) (ps ++ [p]) acc h
    · intro k hk; exact absurd hk (List.not_mem_nil k)
  have hpersist : ∀ m2 : Match, m2 ∈ (fragmentPass c (ps ++ [p])).1 →
      m2 ∈ check_corpus c (ps ++ [p]) := by
    intro m2 hm2
    by_cases hft : c.full_text = ""
    · simpa [check_corpus, hft] using hm2
    · simp only [check_corpus, hft, if_neg hft]
      unfold fullTextPass
      exact foldl_preserve (fullTextStep c) (fun acc => m2 ∈ acc.1)
        (fun acc a h => fullTextStep_mem_matches c acc a h) (ps ++ [p]) _ hm2
  have hfragCover : ∀ f ∈ c.fragments, f.text ≠ "" → ∀ q ∈ ps ++ [p],
      ∀ t : String, q.search f.text = some t →
      ∃ m2 ∈ check_corpus c (ps ++ [p]),
        m2.pattern = q.original ∧ m2.text = t
        ∧ m2.source = f.source ∧ m2.page = f.page := by
    intro f hf hne q hq t hs
    have hkey := fragmentPass_key c (ps ++ [p]) f q t hf hne hq hs
    rcases hInvS _ hkey with ⟨m2, hm2, h1, h2, h3, h4⟩
    exact ⟨m2, hpersist m2 hm2, h1, h2, h3, h4⟩
  constructor
  · intro m hm
    by_cases hft : c.full_text = ""
    · have hm' : m ∈ (fragmentPass c ps).1 := by
        simpa [check_corpus, hft] using hm
      rcases fragmentPass_mem_inv c ps m hm' with
        ⟨f, hf, hne, q, hq, hs, hpat, _, _⟩
      rcases hfragCover f hf hne q (List.mem_append_left _ hq) m.text hs with
        ⟨m2, hm2, h1, h2, _, _⟩
      exact ⟨m2, hm2, by rw [h1, hpat], h2⟩
    · have hm' : m ∈ ((ps.foldl (fullTextStep c) (fragmentPass c ps))).1 := by
        have := hm
        simp only [check_corpus, hft, if_neg hft] at this
        exact this
      rcases fullTextFold_mem_inv c ps (fragmentPass c ps) m hm' with
        hold | ⟨⟨q, hq, hs, hpat⟩, _⟩
      · rcases fragmentPass_mem_inv c ps m hold with
          ⟨f, hf, hne, q, hq, hs, hpat, _, _⟩
        rcases hfragCover f hf hne q (List.mem_append_left _ hq) m.text hs with
          ⟨m2, hm2, h1, h2, _, _⟩
        exact ⟨m2, hm2, by rw [h1, hpat], h2⟩
      · have hkey := fullTextFold_key c (ps ++ [p])
          (fragmentPass c (ps ++ [p])) q m.text (List.mem_append_left _ hq) hs
        have hInvW : InvW ((ps ++ [p]).foldl (fullTextStep c)
            (fragmentPass c (ps ++ [p]))) :=
          foldl_preserve (fullTextStep c) InvW
            (fun acc a h => invW_fullTextStep c acc a h) (ps ++ [p]) _
            (invW_of_invS _ hInvS)
        rcases hInvW _ hkey with ⟨m2, hm2, h1, h2, _⟩
        refine ⟨m2, ?_, by rw [h1, hpat], h2⟩
        simp only [check_corpus, hft, if_neg hft]
        exact hm2
  · intro f hf hne q hq t hs
    exact hfragCover f hf hne q (List.mem_append_left _ hq) t hs

/-- C10, witness: the literal pattern's first-fragment match keeps its
pattern and matched text after the regex pattern is appended. -/
theorem check_corpus_append_monotone_witness :
    ∃ m2 ∈ check_corpus corpusTwoLoc (psTwoLoc ++ [pTwoLoc]),
      m2.pattern = mLoc1.pattern ∧ m2.text = mLoc1.text :=
  (check_corpus_append_monotone corpusTwoLoc psTwoLoc pTwoLoc).1 mLoc1 (by decide)

end RedactVerify
